import Mathlib

/-!
Verification of the postboard key-value store (src/main.go).

The store layer is a single MySQL table `postboard_kvs (k, v, created_at)`
with `k` as primary key.  We embed the table state as a list of rows in
insertion order; the primary key guarantees at most one row per key, which
the embedding re-proves as an invariant of the reachable states instead of
assuming it.  Byte payloads (`BLOB v`, Go `[]byte`) are lists of naturals;
timestamps are naturals supplied explicitly where MySQL would use
`CURRENT_TIMESTAMP`.  SQL `LIKE` is modelled character-exactly (wildcards
`%` and `_`, escape `\`), with a binary (case-sensitive) collation.
-/

namespace Postboard

/-- A row of the `postboard_kvs` table: `k VARCHAR(255) PRIMARY KEY`,
`v BLOB NOT NULL`, `created_at TIMESTAMP DEFAULT CURRENT_TIMESTAMP`. -/
structure Record where
  k : String
  v : List Nat
  created_at : Nat
deriving DecidableEq, Repr

/-- The table state: rows in insertion order (no ORDER BY is ever applied,
so queries see this backend order). -/
abbrev Store := List Record

/-- The effect of `ON DUPLICATE KEY UPDATE v = VALUES(v)` on one row:
replace the `v` column of the row holding the key, leave every other
column and every other row alone. -/
def updRec (key : String) (value : List Nat) (r : Record) : Record :=
  if r.k == key then { r with v := value } else r

/-- `putKeyValue` (src/main.go:99-103):
`INSERT INTO postboard_kvs (k, v) VALUES (?, ?) ON DUPLICATE KEY UPDATE
v = VALUES(v)`.  If a row with the key exists the upsert replaces only its
`v` column; otherwise a fresh row is inserted with `created_at` defaulted
to the current time `now`.  MySQL accepts the empty string for a
`VARCHAR NOT NULL` column, so no key validation happens here. -/
def putKeyValue (key : String) (value : List Nat) (now : Nat) (st : Store) : Store :=
  if st.any (fun r => r.k == key) then
    st.map (updRec key value)
  else
    st ++ [⟨key, value, now⟩]

/-- The database error getKey can surface: `sql.ErrNoRows` from
`QueryRow(...).Scan` when the query matches no row (the spec's
`NotFoundError`). -/
inductive DBErr where
  | noRows
deriving DecidableEq, Repr

/-- `getKey` (src/main.go:105-110): `SELECT v FROM postboard_kvs WHERE k = ?`
scanned with `QueryRow`, which yields `sql.ErrNoRows` when no row has the
key, and the row's `v` otherwise. -/
def getKey (key : String) (st : Store) : Except DBErr (List Nat) :=
  match st.find? (fun r => r.k == key) with
  | some r => Except.ok r.v
  | none => Except.error DBErr.noRows

/-- All suffixes of a character list, longest first (helper for the `%`
wildcard of `LIKE`). -/
def suffixes : List Char → List (List Char)
  | [] => [[]]
  | c :: s => (c :: s) :: suffixes s

/-- MySQL `LIKE` matching of a pattern against a string, with default
semantics: `%` matches any (possibly empty) character sequence, `_` matches
exactly one character, `\` escapes the following pattern character, and a
trailing lone `\` matches a literal backslash.  Collation is taken as
binary (case-sensitive). -/
def likeMatch : List Char → List Char → Bool
  | [], s => s.isEmpty
  | c :: p, s =>
    if c = '%' then (suffixes s).any (fun t => likeMatch p t)
    else if c = '_' then
      match s with
      | _ :: s' => likeMatch p s'
      | [] => false
    else if c = '\\' then
      match p with
      | c2 :: p' =>
        (match s with
         | c0 :: s' => c0 == c2 && likeMatch p' s'
         | [] => false)
      | [] => s == ['\\']
    else
      match s with
      | c0 :: s' => c0 == c && likeMatch p s'
      | [] => false

/-- The pattern `listKeysWithPrefix` hands to `LIKE`: the raw, unescaped
prefix with `%` appended (src/main.go:113 builds `prefix+"%"`). -/
def likePattern (pfx : String) : List Char :=
  pfx.data ++ ['%']

/-- `listKeysWithPrefix` (src/main.go:112-128):
`SELECT k FROM postboard_kvs WHERE k LIKE ? LIMIT 1000` with the pattern
`prefix+"%"`; rows arrive in backend order and the collected keys are
returned. -/
def listKeysWithPrefix (pfx : String) (st : Store) : List String :=
  ((st.filter (fun r => likeMatch (likePattern pfx) r.k.data)).map Record.k).take 1000

/-- Go's `[]byte(s)` for the ASCII strings this tool handles: the bytes of
a string. -/
def strBytes (s : String) : List Nat :=
  s.data.map Char.toNat

/-- Keys of the rows of a store. -/
def keys (st : Store) : List String :=
  st.map Record.k

/-- The primary-key invariant: at most one row per key. -/
def keysNodup (st : Store) : Prop :=
  (keys st).Nodup

/- ### Store lemmas -/

theorem updRec_k (key : String) (value : List Nat) (r : Record) :
    (updRec key value r).k = r.k := by
  unfold updRec
  split <;> rfl

theorem keyPred_comp_updRec (key key' : String) (value : List Nat) :
    ((fun r => r.k == key') ∘ updRec key value) = fun r : Record => r.k == key' := by
  funext r
  simp [Function.comp, updRec_k]

theorem find?_map_updRec (key key' : String) (value : List Nat) (st : Store) :
    (st.map (updRec key value)).find? (fun r => r.k == key') =
      (st.find? (fun r => r.k == key')).map (updRec key value) := by
  rw [List.find?_map, keyPred_comp_updRec]

theorem find?_put_self (key : String) (value : List Nat) (now : Nat) (st : Store) :
    ∃ r, (putKeyValue key value now st).find? (fun r => r.k == key) =
      some r ∧ r.v = value := by
  unfold putKeyValue
  by_cases h : st.any (fun r => r.k == key) = true
  · rw [if_pos h]
    rw [List.any_eq_true] at h
    obtain ⟨x, hx, hxk⟩ := h
    have hsome : (st.find? (fun r => r.k == key)).isSome := by
      rw [List.find?_isSome]
      exact ⟨x, hx, hxk⟩
    obtain ⟨r, hr⟩ := Option.isSome_iff_exists.mp hsome
    refine ⟨updRec key value r, ?_, ?_⟩
    · rw [find?_map_updRec, hr, Option.map_some']
    · have hrk : (r.k == key) = true := by simpa using List.find?_some hr
      unfold updRec
      rw [if_pos hrk]
  · rw [if_neg h]
    have hnone : st.find? (fun r => r.k == key) = none := by
      rw [List.find?_eq_none]
      intro x hx hT
      exact h (List.any_eq_true.mpr ⟨x, hx, hT⟩)
    rw [List.find?_append, hnone]
    exact ⟨⟨key, value, now⟩, by simp [List.find?], rfl⟩

theorem getKey_put_same (key : String) (value : List Nat) (now : Nat) (st : Store) :
    getKey key (putKeyValue key value now st) = Except.ok value := by
  obtain ⟨r, hr, hv⟩ := find?_put_self key value now st
  unfold getKey
  rw [hr]
  simp [hv]

/- ### Claim C1 -/

/-- Claim C1: for every non-empty key and byte sequences v1, v2 (arbitrary
binary content), after Put(key, v1) and then Put(key, v2), Get(key)
succeeds and returns content byte-for-byte identical to v2. -/
theorem put_put_get_returns_v2 (key : String) (hk : key ≠ "")
    (v1 v2 : List Nat) (t1 t2 : Nat) (st : Store) :
    getKey key (putKeyValue key v2 t2 (putKeyValue key v1 t1 st)) =
      Except.ok v2 :=
  getKey_put_same key v2 t2 (putKeyValue key v1 t1 st)

/-- Witness for C1 at the spec's own scenario: key "foo", v1 = bytes of
"bar", v2 = bytes of "baz", starting from the empty store. -/
theorem put_put_get_returns_v2_witness :
    "foo" ≠ "" ∧
      getKey "foo" (putKeyValue "foo" (strBytes "baz") 7
        (putKeyValue "foo" (strBytes "bar") 3 [])) =
        Except.ok (strBytes "baz") :=
  ⟨by decide, put_put_get_returns_v2 "foo" (by decide)
    (strBytes "bar") (strBytes "baz") 3 7 []⟩

/- ### Command layer (src/main.go:161-234) -/

/-- The `set` command Func (src/main.go:168-180).  `key` and `valueArg` are
the parsed argument strings (`c.Arg("value").String()` is `""` when the
argument was not given, in which case a line is read from standard input);
an empty key is rejected before any database access, so an error means no
write happened.  On success the command performs the upsert. -/
def setCommand (key valueArg stdinLine : String) (now : Nat) (st : Store) :
    Except String Store :=
  if key = "" then Except.error "key is empty"
  else
    Except.ok (putKeyValue key
      (strBytes (if valueArg = "" then stdinLine else valueArg)) now st)

/-- The `del` command Func (src/main.go:222-234): it prints either a usage
message or `Deleting configuration <key>...` and returns, never touching
the database.  The result is the (unchanged) store paired with the printed
lines. -/
def delCommand (args : List String) (st : Store) : Store × List String :=
  match args with
  | [key] => (st, ["Deleting configuration " ++ key ++ "..."])
  | _ => (st, ["Invalid number of arguments. Usage: pb del [key]"])

/- ### Claim C3 -/

/-- Claim C3: for every prefix and every store state, ListByPrefix returns
at most 1000 keys, even when more than 1000 records match (the `LIMIT
1000` in src/main.go:113). -/
theorem listByPrefix_le_1000 (pfx : String) (st : Store) :
    (listKeysWithPrefix pfx st).length ≤ 1000 := by
  unfold listKeysWithPrefix
  exact List.length_take_le 1000 _

/- ### Claim C4 -/

/-- Claim C4: for every key for which no record exists, Get fails with the
not-found error (`sql.ErrNoRows` from `QueryRow(...).Scan`), an error
result rather than an empty byte sequence, so a missing key is
distinguishable from an empty stored value. -/
theorem getKey_missing_errors (key : String) (st : Store)
    (h : ∀ r ∈ st, r.k ≠ key) :
    getKey key st = Except.error DBErr.noRows := by
  unfold getKey
  have hnone : st.find? (fun r => r.k == key) = none := by
    rw [List.find?_eq_none]
    intro x hx hT
    exact h x hx (by simpa using hT)
  rw [hnone]

/-- Witness for C4: a store holding only "apple" has no record for
"pear", and Get("pear") returns the error. -/
theorem getKey_missing_errors_witness :
    (∀ r ∈ ([⟨"apple", [1], 0⟩] : Store), r.k ≠ "pear") ∧
      getKey "pear" [⟨"apple", [1], 0⟩] = Except.error DBErr.noRows :=
  ⟨by decide, getKey_missing_errors "pear" [⟨"apple", [1], 0⟩] (by decide)⟩

/- ### Claim C5 (corrected) -/

/-- Counterexample to C5 as stated: the Store-level operation
`putKeyValue` called with the empty key does not fail and does not leave
the store unchanged — on the empty store it creates a record keyed by the
empty string (MySQL accepts `''` for a `VARCHAR NOT NULL` primary key, and
src/main.go:99-103 contains no validation). -/
theorem putKeyValue_empty_key_writes :
    putKeyValue "" [1] 0 [] = [⟨"", [1], 0⟩] := by decide

/-- Amended C5: the empty-key rejection lives in the command dispatcher,
not the Store operation — the `set` command invoked with an empty key
fails with the "key is empty" error before any database access, so no
record is created or modified (src/main.go:169-171). -/
theorem setCommand_empty_key_errors (valueArg stdinLine : String) (now : Nat)
    (st : Store) :
    setCommand "" valueArg stdinLine now st = Except.error "key is empty" := by
  unfold setCommand
  rw [if_pos rfl]

/- ### Claim C8 -/

/-- Claim C8: for every argument list and store state, the `del` command
leaves the store unchanged — it performs no deletion — and with a single
key argument its only output is the intent message
`Deleting configuration <key>...`. -/
theorem delCommand_no_op :
    (∀ (args : List String) (st : Store), (delCommand args st).1 = st) ∧
      (∀ (key : String) (st : Store),
        (delCommand [key] st).2 = ["Deleting configuration " ++ key ++ "..."]) := by
  constructor
  · intro args st
    unfold delCommand
    match args with
    | [key] => rfl
    | [] => rfl
    | _ :: _ :: _ => rfl
  · intro key st
    rfl

/- ### Claim C2 (corrected) -/

/-- `pfx` holds none of the `LIKE` metacharacters `%`, `_` and the escape
character `\`, so `LIKE pfx%` means "starts with pfx" literally. -/
def noLikeMeta (s : String) : Bool :=
  s.data.all (fun c => !(c == '%') && !(c == '_') && !(c == '\\'))

theorem likeMatch_noMeta_isPrefixOf (p : List Char)
    (hp : p.all (fun c => !(c == '%') && !(c == '_') && !(c == '\\')) = true) :
    ∀ s : List Char, likeMatch (p ++ ['%']) s = true → List.isPrefixOf p s = true := by
  induction p with
  | nil =>
    intro s _
    simp [List.isPrefixOf]
  | cons c cs ih =>
    intro s h
    simp only [List.all_cons, Bool.and_eq_true, Bool.not_eq_true',
      beq_eq_false_iff_ne, ne_eq] at hp
    obtain ⟨⟨⟨h1, h2⟩, h3⟩, hrest⟩ := hp
    rw [List.cons_append] at h
    rw [likeMatch.eq_def] at h
    simp only [if_neg h1, if_neg h2, if_neg h3] at h
    cases s with
    | nil => exact absurd h (by simp)
    | cons c0 s' =>
      rw [Bool.and_eq_true] at h
      obtain ⟨hc, hm⟩ := h
      have hc' : c0 = c := by simpa using hc
      subst hc'
      simp only [List.isPrefixOf, Bool.and_eq_true]
      exact ⟨by simp, ih hrest s' hm⟩

theorem mem_listKeysWithPrefix (pfx key : String) (st : Store)
    (h : key ∈ listKeysWithPrefix pfx st) :
    ∃ r ∈ st, r.k = key ∧ likeMatch (likePattern pfx) key.data = true := by
  unfold listKeysWithPrefix at h
  have h' := List.take_subset 1000 _ h
  rw [List.mem_map] at h'
  obtain ⟨r, hr, rfl⟩ := h'
  rw [List.mem_filter] at hr
  exact ⟨r, hr.1, rfl, hr.2⟩

/-- Counterexample to C2 as stated: the `LIKE` pattern is matched against
the key column `k`, not against the stored value.  In a store whose only
record is key "a" with value (the bytes of) "z", ListByPrefix("a") returns
the key "a" although the record's value does not start with the bytes of
"a". -/
theorem listByPrefix_matches_key_not_value :
    listKeysWithPrefix "a" [⟨"a", strBytes "z", 0⟩] = ["a"] ∧
      (([⟨"a", strBytes "z", 0⟩] : Store).find? (fun r => r.k == "a")).map
        Record.v = some (strBytes "z") ∧
      List.isPrefixOf (strBytes "a") (strBytes "z") = false := by decide

/-- Amended C2: every key returned by ListByPrefix(prefix) identifies a
record whose KEY (not value) matches the pattern — in particular, when the
prefix holds no LIKE metacharacter (`%`, `_`, `\`), the returned key
starts with the prefix character-for-character. -/
theorem listByPrefix_keys_start_with (pfx : String) (st : Store) (key : String)
    (hm : noLikeMeta pfx = true) (hk : key ∈ listKeysWithPrefix pfx st) :
    (∃ r ∈ st, r.k = key) ∧ List.isPrefixOf pfx.data key.data = true := by
  obtain ⟨r, hr, hrk, hmatch⟩ := mem_listKeysWithPrefix pfx key st hk
  refine ⟨⟨r, hr, hrk⟩, ?_⟩
  exact likeMatch_noMeta_isPrefixOf pfx.data hm key.data hmatch

/-- Witness for the amended C2 at the spec's own example: prefix "ap" is
metacharacter-free and the returned key "apple" starts with it. -/
theorem listByPrefix_keys_start_with_witness :
    noLikeMeta "ap" = true ∧
      "apple" ∈ listKeysWithPrefix "ap" [⟨"apple", [1], 0⟩, ⟨"banana", [2], 1⟩] ∧
      ((∃ r ∈ ([⟨"apple", [1], 0⟩, ⟨"banana", [2], 1⟩] : Store), r.k = "apple") ∧
        List.isPrefixOf "ap".data "apple".data = true) :=
  ⟨by decide, by decide,
    listByPrefix_keys_start_with "ap" [⟨"apple", [1], 0⟩, ⟨"banana", [2], 1⟩]
      "apple" (by decide) (by decide)⟩

/- ### Claim C6 -/

/-- The errors a command Func can return: the "key is empty" rejection or
a database error. -/
inductive CmdErr where
  | keyEmpty
  | dbErr (e : DBErr)
deriving DecidableEq, Repr

/-- One line the `get` command prints: a bare key (keys-only mode), a
`key=value` line (default wildcard mode), or a bare value (exact
lookup). -/
inductive OutLine where
  | keyOnly (k : String)
  | keyValue (k : String) (v : List Nat)
  | bareValue (v : List Nat)
deriving DecidableEq, Repr

/-- The value the store holds for a key (the bytes the `key=value` line
shows); `[]` when the key is absent, in which case `getKey` errors
instead of producing a line. -/
def lookupValue (key : String) (st : Store) : List Nat :=
  match st.find? (fun r => r.k == key) with
  | some r => r.v
  | none => []

/-- The loop over the matching keys in the `get` command's wildcard branch
(src/main.go:201-211): keys-only mode prints each key; default mode looks
each key up and prints `key=value`, aborting on a lookup error. -/
def printMatches (keysOnly : Bool) (ks : List String) (st : Store) :
    Except CmdErr (List OutLine) :=
  match ks with
  | [] => Except.ok []
  | key :: rest =>
    if keysOnly then
      match printMatches keysOnly rest st with
      | Except.ok ls => Except.ok (OutLine.keyOnly key :: ls)
      | Except.error e => Except.error e
    else
      match getKey key st with
      | Except.ok v =>
        match printMatches keysOnly rest st with
        | Except.ok ls => Except.ok (OutLine.keyValue key v :: ls)
        | Except.error e => Except.error e
      | Except.error e => Except.error (CmdErr.dbErr e)

/-- The default value of the `keysOnly` flag: src/main.go:189 binds it
with `c.BoolOpt(&keysOnly, "k", "", true, "Only print keys")`, and gcli's
fourth `BoolOpt` argument is the option's default value — so keys-only
output is what the program does when the flag is not given. -/
def keysOnlyDefault : Bool := true

/-- gcli flag resolution for the bound `keysOnly` variable: the value from
the command line when the flag was given, the declared default (`true`,
src/main.go:189) when it was not. -/
def resolveKeysOnly (flagArg : Option Bool) : Bool :=
  flagArg.getD keysOnlyDefault

/-- The `get` command Func (src/main.go:183-221): an empty key is
rejected; a key whose last character is `*` triggers the wildcard branch
on the prefix before the `*`; otherwise the value is looked up and printed
bare.  `keysOnly` is the value of the variable bound by the `BoolOpt` at
src/main.go:189 after flag parsing, i.e. `resolveKeysOnly` of the
command line. -/
def getCommand (keysOnly : Bool) (key : String) (st : Store) :
    Except CmdErr (List OutLine) :=
  if key = "" then Except.error CmdErr.keyEmpty
  else if key.data.getLast? = some '*' then
    printMatches keysOnly (listKeysWithPrefix (String.mk key.data.dropLast) st) st
  else
    match getKey key st with
    | Except.ok v => Except.ok [OutLine.bareValue v]
    | Except.error e => Except.error (CmdErr.dbErr e)

theorem getKey_of_mem_store (key : String) (st : Store)
    (h : ∃ r ∈ st, r.k = key) :
    getKey key st = Except.ok (lookupValue key st) := by
  obtain ⟨r, hr, hrk⟩ := h
  have hsome : (st.find? (fun r => r.k == key)).isSome := by
    rw [List.find?_isSome]
    exact ⟨r, hr, by simp [hrk]⟩
  obtain ⟨r', hr'⟩ := Option.isSome_iff_exists.mp hsome
  unfold getKey lookupValue
  rw [hr']

theorem printMatches_ok (ko : Bool) (ks : List String) (st : Store)
    (h : ∀ key ∈ ks, ∃ r ∈ st, r.k = key) :
    printMatches ko ks st = Except.ok (ks.map
      (fun key => if ko then OutLine.keyOnly key
        else OutLine.keyValue key (lookupValue key st))) := by
  induction ks with
  | nil => rfl
  | cons key rest ih =>
    have hkey : ∃ r ∈ st, r.k = key := h key (List.mem_cons_self key rest)
    have hrest : ∀ key' ∈ rest, ∃ r ∈ st, r.k = key' :=
      fun key' hk' => h key' (List.mem_cons_of_mem key hk')
    rw [List.map_cons, printMatches]
    by_cases hko : ko = true
    · rw [if_pos hko, ih hrest, hko]
      rfl
    · rw [if_neg hko, getKey_of_mem_store key st hkey, ih hrest]
      rw [Bool.not_eq_true] at hko
      rw [hko]
      rfl

theorem getCommand_wildcard_resolved (ko : Bool) (pfx : String) (st : Store) :
    getCommand ko (pfx ++ "*") st =
      Except.ok ((listKeysWithPrefix pfx st).map
        (fun key => if ko then OutLine.keyOnly key
          else OutLine.keyValue key (lookupValue key st))) := by
  have hdata : (pfx ++ "*").data = pfx.data ++ ['*'] := String.data_append pfx "*"
  have hne : ¬ (pfx ++ "*" = "") := by
    intro h
    have := congrArg String.data h
    rw [hdata] at this
    exact absurd this (by simp)
  have hlast : (pfx ++ "*").data.getLast? = some '*' := by
    rw [hdata]
    exact List.getLast?_concat _
  have hdrop : String.mk ((pfx ++ "*").data.dropLast) = pfx := by
    rw [hdata, List.dropLast_concat]
  unfold getCommand
  rw [if_neg hne, if_pos hlast, hdrop]
  refine printMatches_ok ko _ st ?_
  intro key hkey
  obtain ⟨r, hr, hrk, _⟩ := mem_listKeysWithPrefix pfx key st hkey
  exact ⟨r, hr, hrk⟩

/-- Counterexample to C6 as stated: with the keys-only flag NOT given, the
bound `keysOnly` variable holds its gcli default `true` (src/main.go:189),
so the wildcard form `get foo*` over a store holding key "foo" prints just
the key — not the claimed default `key=value` line. -/
theorem getCommand_default_not_key_value :
    getCommand (resolveKeysOnly none) "foo*" [⟨"foo", [1], 0⟩] =
      Except.ok [OutLine.keyOnly "foo"] ∧
      Except.ok [OutLine.keyOnly "foo"] ≠
        (Except.ok [OutLine.keyValue "foo" [1]] :
          Except CmdErr (List OutLine)) := by
  constructor
  · rfl
  · simp

/-- Amended C6: for the wildcard form `get <key>*`, the keys-only flag
defaults to true, so when the flag is not given (and likewise when it is
given as true) the output is one line per matching key holding just the
key; only an explicit false value of the flag switches the output to one
`key=value` line per matching key, with the value looked up for each
key. -/
theorem getCommand_wildcard_default (pfx : String) (st : Store) :
    getCommand (resolveKeysOnly none) (pfx ++ "*") st =
      Except.ok ((listKeysWithPrefix pfx st).map OutLine.keyOnly) ∧
    getCommand (resolveKeysOnly (some true)) (pfx ++ "*") st =
      Except.ok ((listKeysWithPrefix pfx st).map OutLine.keyOnly) ∧
    getCommand (resolveKeysOnly (some false)) (pfx ++ "*") st =
      Except.ok ((listKeysWithPrefix pfx st).map
        (fun key => OutLine.keyValue key (lookupValue key st))) := by
  refine ⟨?_, ?_, ?_⟩
  · have h := getCommand_wildcard_resolved true pfx st
    simpa using h
  · have h := getCommand_wildcard_resolved true pfx st
    simpa using h
  · have h := getCommand_wildcard_resolved false pfx st
    simpa using h

/- ### Claim C7 -/

theorem updRec_created_at (key : String) (value : List Nat) (r : Record) :
    (updRec key value r).created_at = r.created_at := by
  unfold updRec
  split <;> rfl

theorem any_put_self (key : String) (value : List Nat) (now : Nat) (st : Store) :
    (putKeyValue key value now st).any (fun r => r.k == key) = true := by
  obtain ⟨r, hr, _⟩ := find?_put_self key value now st
  rw [List.any_eq_true]
  exact ⟨r, List.mem_of_find?_eq_some hr, by simpa using List.find?_some hr⟩

theorem putKeyValue_of_any (key : String) (value : List Nat) (now : Nat)
    (st : Store) (h : st.any (fun r => r.k == key) = true) :
    putKeyValue key value now st = st.map (updRec key value) := by
  unfold putKeyValue
  rw [if_pos h]

theorem filter_ne_map_updRec (key : String) (value : List Nat) (st : Store) :
    (st.map (updRec key value)).filter (fun r => !(r.k == key)) =
      st.filter (fun r => !(r.k == key)) := by
  induction st with
  | nil => rfl
  | cons a l ih =>
    rw [List.map_cons, List.filter_cons, List.filter_cons]
    by_cases ha : (a.k == key) = true
    · have h1 : (!((updRec key value a).k == key)) = false := by
        rw [updRec_k, ha]
        rfl
      have h2 : (!(a.k == key)) = false := by
        rw [ha]
        rfl
      rw [h1, h2]
      simpa using ih
    · have hupd : updRec key value a = a := by
        unfold updRec
        rw [if_neg ha]
      have h1 : (!((updRec key value a).k == key)) = true := by
        rw [updRec_k, Bool.not_eq_true', Bool.eq_false_iff]
        exact ha
      have h2 : (!(a.k == key)) = true := by
        rw [Bool.not_eq_true', Bool.eq_false_iff]
        exact ha
      rw [h1, h2]
      simp only [if_pos trivial]
      rw [hupd]
      exact congrArg (a :: ·) ih

/-- Claim C7: overwriting an existing key replaces only that record's
value — afterwards the record for `k` holds `v2`, its `created_at` is the
one it had before the overwrite (for a fresh key, the timestamp of the
original insert), and the sub-list of all records with other keys is
unchanged. -/
theorem put_overwrite_frame (st : Store) (k : String) (v1 v2 : List Nat)
    (t1 t2 : Nat) :
    (((putKeyValue k v2 t2 (putKeyValue k v1 t1 st)).find?
        (fun r => r.k == k)).map Record.v = some v2) ∧
    (((putKeyValue k v2 t2 (putKeyValue k v1 t1 st)).find?
        (fun r => r.k == k)).map Record.created_at =
      (((putKeyValue k v1 t1 st).find? (fun r => r.k == k)).map
        Record.created_at)) ∧
    ((putKeyValue k v2 t2 (putKeyValue k v1 t1 st)).filter
        (fun r => !(r.k == k)) =
      (putKeyValue k v1 t1 st).filter (fun r => !(r.k == k))) ∧
    (st.any (fun r => r.k == k) = false →
      ((putKeyValue k v2 t2 (putKeyValue k v1 t1 st)).find?
          (fun r => r.k == k)).map Record.created_at = some t1) := by
  have hmap := putKeyValue_of_any k v2 t2 (putKeyValue k v1 t1 st)
    (any_put_self k v1 t1 st)
  refine ⟨?_, ?_, ?_, ?_⟩
  · obtain ⟨r, hr, hv⟩ := find?_put_self k v2 t2 (putKeyValue k v1 t1 st)
    rw [hr, Option.map_some', hv]
  · rw [hmap, find?_map_updRec]
    cases (putKeyValue k v1 t1 st).find? (fun r => r.k == k) with
    | none => rfl
    | some r =>
      rw [Option.map_some', Option.map_some', Option.map_some',
        updRec_created_at]
  · rw [hmap, filter_ne_map_updRec]
  · intro hfresh
    rw [hmap, find?_map_updRec]
    have h1 : putKeyValue k v1 t1 st = st ++ [⟨k, v1, t1⟩] := by
      unfold putKeyValue
      rw [if_neg (by rw [hfresh]; exact Bool.false_ne_true)]
    have hnone : st.find? (fun r => r.k == k) = none := by
      rw [List.find?_eq_none]
      intro x hx hT
      exact absurd (List.any_eq_true.mpr ⟨x, hx, hT⟩)
        (by rw [hfresh]; exact Bool.false_ne_true)
    rw [h1, List.find?_append, hnone]
    simp [List.find?, updRec_created_at]

/-- Witness for C7's hypothesis-bearing conjunct: key "a" is fresh in a
store holding only "other", and after insert at time 5 and overwrite at
time 8 the record's `created_at` is still 5. -/
theorem put_overwrite_frame_witness :
    (([⟨"other", [9], 1⟩] : Store).any (fun r => r.k == "a") = false) ∧
      ((putKeyValue "a" [2] 8 (putKeyValue "a" [1] 5 [⟨"other", [9], 1⟩])).find?
          (fun r => r.k == "a")).map Record.created_at = some 5 :=
  ⟨by decide,
    (put_overwrite_frame [⟨"other", [9], 1⟩] "a" [1] [2] 5 8).2.2.2 (by decide)⟩

/- ### Claim C9 -/

/-- One invocation of the tool, as seen by the store: `EnsureSchema`
(`CREATE TABLE IF NOT EXISTS`, src/main.go:87-97, which never touches
rows), a put, a get, a prefix listing, or the `del` command. -/
inductive Op where
  | ensureSchema
  | put (k : String) (v : List Nat) (t : Nat)
  | get (k : String)
  | listByPrefix (p : String)
  | del (args : List String)

/-- The store state after one operation.  Reads leave the table as is;
`del` is the no-op command; `ensureSchema` only creates the (schema of
the) table and never modifies rows. -/
def applyOp (st : Store) : Op → Store
  | Op.ensureSchema => st
  | Op.put k v t => putKeyValue k v t st
  | Op.get _ => st
  | Op.listByPrefix _ => st
  | Op.del args => (delCommand args st).1

/-- The store state after a sequence of operations. -/
def runOps (ops : List Op) (st : Store) : Store :=
  ops.foldl applyOp st

theorem keys_put (key : String) (value : List Nat) (now : Nat) (st : Store) :
    keys (putKeyValue key value now st) =
      if st.any (fun r => r.k == key) then keys st else keys st ++ [key] := by
  unfold putKeyValue keys
  by_cases h : st.any (fun r => r.k == key) = true
  · rw [if_pos h, if_pos h, List.map_map]
    congr 1
    funext r
    exact updRec_k key value r
  · rw [if_neg h, if_neg h, List.map_append]
    rfl

theorem keysNodup_put (key : String) (value : List Nat) (now : Nat)
    (st : Store) (h : keysNodup st) : keysNodup (putKeyValue key value now st) := by
  unfold keysNodup
  rw [keys_put]
  by_cases hany : st.any (fun r => r.k == key) = true
  · rw [if_pos hany]
    exact h
  · rw [if_neg hany]
    rw [List.nodup_append]
    refine ⟨h, List.nodup_singleton key, ?_⟩
    intro x hx hk
    rw [List.mem_singleton] at hk
    subst hk
    unfold keys at hx
    rw [List.mem_map] at hx
    obtain ⟨r, hr, hrk⟩ := hx
    exact hany (List.any_eq_true.mpr ⟨r, hr, by simp [hrk]⟩)

theorem keysNodup_applyOp (st : Store) (op : Op) (h : keysNodup st) :
    keysNodup (applyOp st op) := by
  cases op with
  | ensureSchema => exact h
  | put k v t => exact keysNodup_put k v t st h
  | get _ => exact h
  | listByPrefix _ => exact h
  | del args => rw [applyOp, delCommand_no_op.1]; exact h

theorem keysNodup_runOps (ops : List Op) (st : Store) (h : keysNodup st) :
    keysNodup (runOps ops st) := by
  induction ops generalizing st with
  | nil => exact h
  | cons op ops ih =>
    rw [runOps, List.foldl_cons]
    exact ih (applyOp st op) (keysNodup_applyOp st op h)

/-- Claim C9: in every state reachable from the empty store by
EnsureSchema, Put, Get, ListByPrefix and del operations there is at most
one record per key, and a Put on an existing key leaves the key column
untouched — it mutates the row in place instead of adding a second one
(while a Put on a fresh key appends exactly that key). -/
theorem at_most_one_record_per_key :
    (∀ ops : List Op, keysNodup (runOps ops [])) ∧
      (∀ (st : Store) (k : String) (v : List Nat) (t : Nat),
        keys (putKeyValue k v t st) =
          if st.any (fun r => r.k == k) then keys st else keys st ++ [k]) := by
  constructor
  · intro ops
    exact keysNodup_runOps ops [] List.nodup_nil
  · intro st k v t
    exact keys_put k v t st

/- ### Claim C10 -/

/-- A store whose keys "ax" and "bx" do not start with an underscore. -/
def stMeta : Store := [⟨"ax", [0], 0⟩, ⟨"bx", [1], 1⟩]

/-- Claim C10: the prefix reaches the SQL LIKE pattern unescaped
(`prefix+"%"`), so a prefix holding the LIKE metacharacter `_` matches
keys that do not literally start with it: with stored keys "ax" and "bx",
ListByPrefix("_") returns both, though neither begins with "_". -/
theorem listByPrefix_unescaped_metachar :
    listKeysWithPrefix "_" stMeta = ["ax", "bx"] ∧
      List.isPrefixOf "_".data "ax".data = false ∧
      List.isPrefixOf "_".data "bx".data = false := by decide

end Postboard
